import Mathlib

/-!
Shallow embedding of the `mmap_file_io` repository: the class `mmap_reader`
(src/mmap_reader.hpp) and the class `mmap_writer` (src/mmap_writer.hpp).

Bytes are modelled as `Nat` and file contents as `List Nat`.  The OS calls
(`mmap`, `ftruncate`, `mremap`, `msync`, `munmap`) are modelled by their
effect on the backing file's byte content; `size_t` values are modelled as
`Nat` (no claim here depends on 64-bit wrap-around).  Fallible operations
return `Except`.
-/

/-- State of `mmap_reader`: `mapped` models `mapped_ptr != nullptr`, `data`
the mapped bytes (so `map_size = data.length`), `current_offset` the read
cursor.  The class stores no ownership flag for its descriptor. -/
structure MReader where
  mapped : Bool
  data : List Nat
  current_offset : Nat
  deriving DecidableEq, Repr

/-- `mmap_reader::size()`: returns `map_size`. -/
def MReader.size (r : MReader) : Nat := r.data.length

/-- `mmap_reader::tell()`: returns `current_offset`. -/
def MReader.tell (r : MReader) : Nat := r.current_offset

/-- `mmap_reader::is_open()`: `mapped_ptr != nullptr`. -/
def MReader.is_open (r : MReader) : Bool := r.mapped

/-- `mmap_reader::eof()` (private): `current_offset >= map_size`. -/
def MReader.eof (r : MReader) : Bool := decide (r.current_offset ≥ r.data.length)

/-- `mmap_reader::close()`: when open it unmaps, calls `::close(fd)` and
resets every field; when already closed it does nothing.  The returned
`Bool` records whether `::close(fd)` was invoked; the source closes the
descriptor unconditionally whenever the reader is open. -/
def MReader.close (r : MReader) : MReader × Bool :=
  if r.mapped then (⟨false, [], 0⟩, true) else (r, false)

/-- `mmap_reader::open(path)` and the path constructor: the reader opens a
descriptor of its own and maps the file bytes. -/
def MReader.openPath (bytes : List Nat) : MReader := ⟨true, bytes, 0⟩

/-- `mmap_reader::open(int)` and the descriptor constructor: the reader maps
the file bytes of a caller-provided descriptor.  The resulting state is the
same as for `openPath`: the source records nowhere that the descriptor came
from the caller. -/
def MReader.ofFd (bytes : List Nat) : MReader := ⟨true, bytes, 0⟩

/-- `mmap_reader::seek(size_t)`: `current_offset = min(pos, map_size)`. -/
def MReader.seekAbs (r : MReader) (pos : Nat) : MReader :=
  { r with current_offset := min pos r.data.length }

/-- The `seekdir` enum of reader and writer; `fin` models `seekdir::end`
(`end` is a Lean keyword). -/
inductive SeekDir where
  | beg
  | cur
  | fin
  deriving DecidableEq, Repr

/-- `mmap_reader::seek(ptrdiff_t off, seekdir dir)`. -/
def MReader.seekRel (r : MReader) (off : Int) (dir : SeekDir) : MReader :=
  match dir with
  | .beg =>
      if off < 0 then { r with current_offset := 0 }
      else { r with current_offset := min off.toNat r.data.length }
  | .cur =>
      if off < 0 then
        { r with current_offset :=
            if (-off).toNat > r.current_offset then 0
            else r.current_offset - (-off).toNat }
      else { r with current_offset := min (r.current_offset + off.toNat) r.data.length }
  | .fin =>
      if off < 0 then
        { r with current_offset :=
            if (-off).toNat > r.data.length then 0
            else r.data.length - (-off).toNat }
      else { r with current_offset := r.data.length }

/-- The delimiter scan of `next_line`/`getline`: walk the bytes at index
`cur` and beyond, returning the C++ loop's final `(cur, found_delimiter)`
pair. -/
def scanAux : List Nat → Nat → Nat → Nat × Nat
  | [], _, cur => (cur, 0)
  | b :: rest, delim, cur =>
      if b = delim then (cur + 1, 1) else scanAux rest delim (cur + 1)

/-- The `while (cur < map_size)` delimiter loop started at index `cur`. -/
def scanDelim (data : List Nat) (delim : Nat) (cur : Nat) : Nat × Nat :=
  scanAux (data.drop cur) delim cur

/-- `mmap_reader::next_line` (private): scan for the delimiter, return the
view `{mapped_ptr + current_offset, cur - current_offset - found_delimiter}`
and advance `current_offset` to `cur`. -/
def MReader.next_line (r : MReader) (delim : Nat) : List Nat × MReader :=
  let s := scanDelim r.data delim r.current_offset
  ((r.data.drop r.current_offset).take (s.1 - r.current_offset - s.2),
   { r with current_offset := s.1 })

/-- `mmap_reader::next_char` (private): `mapped_ptr[current_offset++]`. -/
def MReader.next_char (r : MReader) : Nat × MReader :=
  (r.data.getD r.current_offset 0, { r with current_offset := r.current_offset + 1 })

/-- `mmap_reader::getline`: `nullopt` once `current_offset >= map_size`,
otherwise the very same scan as `next_line` (the source repeats the loop
verbatim). -/
def MReader.getline (r : MReader) (delim : Nat) : Option (List Nat × MReader) :=
  if r.current_offset ≥ r.data.length then none
  else some (r.next_line delim)

/-- `mmap_reader::getchar`: `nullopt` at eof, else the byte under the cursor
with the cursor advanced. -/
def MReader.getchar (r : MReader) : Option (Nat × MReader) :=
  if r.current_offset ≥ r.data.length then none
  else some (r.next_char)

/-- The loop `for (auto line : reader.lines(delim)) ...` driven by the
`LineReader::iterator` protocol: while `operator!=` (that is, not `eof`)
holds, yield `operator*` (that is, `next_line`); `operator++` is a no-op. -/
def MReader.linesList (r : MReader) (delim : Nat) : List (List Nat) :=
  if h : r.current_offset < r.data.length then
    (r.next_line delim).1 :: ((r.next_line delim).2.linesList delim)
  else []
termination_by r.data.length - r.current_offset
decreasing_by
  have key : ∀ (l : List Nat) (d c : Nat), c ≤ (scanAux l d c).1 := by
    intro l
    induction l with
    | nil => intro d c; simp [scanAux]
    | cons b rest ih =>
        intro d c
        by_cases hb : b = d
        · simp [scanAux, hb]
        · simp only [scanAux, if_neg hb]
          exact Nat.le_trans (Nat.le_succ c) (ih d (c + 1))
  have h2 : r.current_offset < (scanDelim r.data delim r.current_offset).1 := by
    unfold scanDelim
    rcases hd : r.data.drop r.current_offset with _ | ⟨b, rest⟩
    · have := List.drop_eq_nil_iff.mp hd
      omega
    · by_cases hb : b = delim
      · simp [scanAux, hb]
      · simp only [scanAux, if_neg hb]
        exact Nat.lt_of_lt_of_le (Nat.lt_succ_self _) (key rest delim (r.current_offset + 1))
  simp only [MReader.next_line]
  omega

/-- The loop `for (auto c : reader.chars()) ...` driven by the
`CharReader::iterator` protocol. -/
def MReader.charsList (r : MReader) : List Nat :=
  if h : r.current_offset < r.data.length then
    (r.next_char).1 :: (r.next_char).2.charsList
  else []
termination_by r.data.length - r.current_offset
decreasing_by
  simp only [MReader.next_char]
  omega

/-- `LineReader::iterator::operator*`: calls `reader->next_line(delimiter)`. -/
def MReader.lineIterDeref (r : MReader) (delim : Nat) : List Nat × MReader := r.next_line delim

/-- `LineReader::iterator::operator++`: `return *this;` - no state change. -/
def MReader.lineIterInc (r : MReader) : MReader := r

/-- `CharReader::iterator::operator*`: calls `reader->next_char()`. -/
def MReader.charIterDeref (r : MReader) : Nat × MReader := r.next_char

/-- `CharReader::iterator::operator++`: `return *this;` - no state change. -/
def MReader.charIterInc (r : MReader) : MReader := r

/-- `iterator::operator!=(eof_iter)` of both iterator kinds:
`!reader->eof()`. -/
def MReader.iterNe (r : MReader) : Bool := !r.eof

/-- Index of the first occurrence of `delim` in `l` at or after position
`i` (positions counted so that the head of `l` is at index `i`).  Used to
state the specification of the delimiter scan. -/
def firstHitAux : List Nat → Nat → Nat → Option Nat
  | [], _, _ => none
  | b :: rest, delim, i => if b = delim then some i else firstHitAux rest delim (i + 1)

/-- Index of the first occurrence of `delim` in `data` at or after index
`start`. -/
def firstHit (data : List Nat) (delim : Nat) (start : Nat) : Option Nat :=
  firstHitAux (data.drop start) delim start

/-- Byte codes of `"Hello, mmap_reader!"` (the first line of the test file
written by `src/test/test_reader.cpp`). -/
def s1Line1 : List Nat :=
  [72, 101, 108, 108, 111, 44, 32, 109, 109, 97, 112, 95, 114, 101, 97, 100, 101, 114, 33]

/-- Byte codes of `"This is a test file."` (the second line of the test
file). -/
def s1Line2 : List Nat :=
  [84, 104, 105, 115, 32, 105, 115, 32, 97, 32, 116, 101, 115, 116, 32, 102, 105, 108, 101, 46]

/-- Byte codes of the scenario S1 test file
`"Hello, mmap_reader!\nThis is a test file.\n"` (`10` is the newline). -/
def s1Data : List Nat := s1Line1 ++ [10] ++ s1Line2 ++ [10]

/-- Error kinds of `mmap_writer`: the `std::logic_error` thrown by `expand`
when `expand_size == 0`, and the `std::invalid_argument` thrown by
`File::File(writer, fd)` on a negative descriptor. -/
inductive WErr where
  | expandSizeZero
  | badFd
  deriving DecidableEq, Repr

/-- State of `mmap_writer`: `contents` models the bytes of the backing file
and of the shared writable mapping (the source keeps `file_size`, the file
length and the mapping length in lockstep through `resize` and `remap`, so
`file_size = contents.length`); `should_close` is `File::should_close`. -/
structure MWriter where
  contents : List Nat
  write_pos : Nat
  max_write_pos : Nat
  expand_size : Nat
  should_close : Bool
  deriving DecidableEq, Repr

/-- `ftruncate` to length `n` (`File::resize`): truncate, or zero-extend,
the file bytes. -/
def resizeList (c : List Nat) (n : Nat) : List Nat :=
  c.take n ++ List.replicate (n - c.length) 0

/-- The loop `while (new_file_size < required_size) new_file_size +=
expand_size;` of `mmap_writer::expand`.  The `0 < step` guard mirrors the
`expand_size == 0` check that precedes the loop in the source and makes the
recursion terminating. -/
def expandLoop (cur step required : Nat) : Nat :=
  if h : 0 < step ∧ cur < required then expandLoop (cur + step) step required
  else cur
termination_by required - cur
decreasing_by omega

/-- `mmap_writer::expand(required_size)`: reject `expand_size == 0`, grow
`file_size` in steps of `expand_size` until it reaches `required_size`, then
`ftruncate` and `mremap` to the new size. -/
def MWriter.expand (s : MWriter) (required : Nat) : Except WErr MWriter :=
  if s.expand_size = 0 then .error .expandSizeZero
  else .ok { s with
    contents := resizeList s.contents (expandLoop s.contents.length s.expand_size required) }

/-- `std::ranges::copy(data, mapped_ptr + pos)` into the mapping. -/
def writeAt (c : List Nat) (pos : Nat) (data : List Nat) : List Nat :=
  c.take pos ++ data ++ c.drop (pos + data.length)

/-- `mmap_writer::size()`: returns `max_write_pos`. -/
def MWriter.size (s : MWriter) : Nat := s.max_write_pos

/-- `mmap_writer::capacity()`: returns `file_size`. -/
def MWriter.capacity (s : MWriter) : Nat := s.contents.length

/-- `mmap_writer::tell()`: returns `write_pos`. -/
def MWriter.tell (s : MWriter) : Nat := s.write_pos

/-- `mmap_writer::set_expand_size(n)`:
`expand_size = new_expand_size > 0 ? new_expand_size : 8192`. -/
def MWriter.set_expand_size (s : MWriter) (n : Nat) : MWriter :=
  { s with expand_size := if n > 0 then n else 8192 }

/-- `mmap_writer::shrink_to_fit()`: when `max_write_pos < file_size`, resize
file and mapping down to `max_write_pos`. -/
def MWriter.shrink_to_fit (s : MWriter) : MWriter :=
  if s.max_write_pos < s.contents.length then
    { s with contents := resizeList s.contents s.max_write_pos }
  else s

/-- `mmap_writer::seek(size_t pos)`: expand when `pos > file_size`, set
`write_pos`, bump `max_write_pos`; a thrown grow failure propagates. -/
def MWriter.seekAbs (s : MWriter) (pos : Nat) : Except WErr MWriter :=
  match (if pos > s.contents.length then s.expand pos else .ok s) with
  | .error e => .error e
  | .ok t => .ok { t with write_pos := pos, max_write_pos := max t.max_write_pos pos }

/-- `mmap_writer::seek(ptrdiff_t off, seekdir dir)`: compute `new_pos` as in
the source's switch, then delegate to `seek(new_pos)`. -/
def MWriter.seekRel (s : MWriter) (off : Int) (dir : SeekDir) : Except WErr MWriter :=
  let new_pos : Nat :=
    match dir with
    | .beg => if off < 0 then 0 else off.toNat
    | .cur =>
        if off < 0 then
          if (-off).toNat > s.write_pos then 0 else s.write_pos - (-off).toNat
        else s.write_pos + off.toNat
    | .fin =>
        if off < 0 then
          if (-off).toNat > s.max_write_pos then 0 else s.max_write_pos - (-off).toNat
        else s.max_write_pos + off.toNat
  s.seekAbs new_pos

/-- `mmap_writer::write(data)`: expand when `write_pos + data.size() >
file_size`, copy at `write_pos`, advance `write_pos`, bump
`max_write_pos`. -/
def MWriter.write (s : MWriter) (data : List Nat) : Except WErr MWriter :=
  match (if s.write_pos + data.length > s.contents.length
         then s.expand (s.write_pos + data.length) else .ok s) with
  | .error e => .error e
  | .ok t =>
      .ok { t with
        contents := writeAt t.contents t.write_pos data,
        write_pos := t.write_pos + data.length,
        max_write_pos := max t.max_write_pos (t.write_pos + data.length) }

/-- `mmap_writer::pwrite(data, offset)`: expand when `offset + data.size() >
file_size`, copy at `offset`, bump `max_write_pos`; `write_pos` is not
moved. -/
def MWriter.pwrite (s : MWriter) (data : List Nat) (off : Nat) : Except WErr MWriter :=
  match (if off + data.length > s.contents.length
         then s.expand (off + data.length) else .ok s) with
  | .error e => .error e
  | .ok t =>
      .ok { t with
        contents := writeAt t.contents off data,
        max_write_pos := max t.max_write_pos (off + data.length) }

/-- `mmap_writer::flush(async)`: `msync` over `[0, max_write_pos)`; it has
no effect on the modelled state. -/
def MWriter.flush (s : MWriter) : MWriter := s

/-- Modelled from the spec: `reserve(n)` ("Grow so that `capacity >= n`;
does not change cursors or `high_water`") is listed in the spec's writer
contract but `src/mmap_writer.hpp` has no such member; the earlier writer in
`src/mmap_writer.cpp` defines `reserve(new_size) { expand(new_size); }`,
which is what this definition follows. -/
def MWriter.reserve (s : MWriter) (n : Nat) : Except WErr MWriter := s.expand n

/-- The sizing computation of `mmap_writer::init`: `old_file_size` is the
length `fstat` reports at `init` time. -/
def initFileSize (old_file_size reserved_size : Nat) : Nat :=
  if old_file_size = 0 then (if reserved_size > 0 then reserved_size else 8192)
  else old_file_size + reserved_size

/-- The path constructor `mmap_writer(filename, truncate, reserved_size)`:
`File::open` applies `O_TRUNC` when `truncate` (emptying the file before
`init` measures it), then `init` resizes the backing file to
`initFileSize`, maps it, and positions the cursors. -/
def MWriter.openPath (existing : List Nat) (truncate : Bool) (reserved_size : Nat) : MWriter :=
  let afterOpen := if truncate then [] else existing
  { contents := resizeList afterOpen (initFileSize afterOpen.length reserved_size),
    write_pos := if truncate then 0 else afterOpen.length,
    max_write_pos := if truncate then 0 else afterOpen.length,
    expand_size := 8192,
    should_close := true }

/-- The descriptor constructor `mmap_writer(fd, truncate, reserved_size)`:
`File::File(writer, fd)` rejects a negative descriptor and sets
`should_close = false`; no `O_TRUNC` is applied, so `init` measures the
file's existing length even when `truncate` is requested. -/
def MWriter.openFd (fd : Int) (existing : List Nat) (truncate : Bool) (reserved_size : Nat) :
    Except WErr MWriter :=
  if fd < 0 then .error .badFd
  else
    .ok { contents := resizeList existing (initFileSize existing.length reserved_size),
          write_pos := if truncate then 0 else existing.length,
          max_write_pos := if truncate then 0 else existing.length,
          expand_size := 8192,
          should_close := false }

/-- `File::~File` teardown: `ftruncate` the backing file down to
`max_write_pos` when it is shorter than `file_size`, then `::close(fd)` only
when `should_close`.  Returns the final on-disk bytes and whether the
descriptor was closed. -/
def MWriter.closeFile (s : MWriter) : List Nat × Bool :=
  (if s.max_write_pos < s.contents.length then resizeList s.contents s.max_write_pos
   else s.contents,
   s.should_close)

/-- Capacity formula in the spec's words (section 4.1): "Size the backing
file to max(current_length, reserved_size, default initial) - where the
default initial when the file is empty and no reservation was given is
expand_size (8192)".  Stated here only to be compared with `initFileSize`,
which is what the code computes. -/
def specInitCapacity (len reserved : Nat) : Nat :=
  max len (max reserved (if len = 0 ∧ reserved = 0 then 8192 else 0))

/-- Whether a writer operation returned normally (rather than throwing). -/
def wIsOk : Except WErr MWriter → Bool
  | .ok _ => true
  | .error _ => false

/-- The writer operations claim C5 quantifies over. -/
inductive WOp where
  | writeOp (data : List Nat)
  | pwriteOp (data : List Nat) (off : Nat)
  | seekAbsOp (pos : Nat)
  | seekRelOp (off : Int) (dir : SeekDir)
  | reserveOp (n : Nat)
  | shrinkOp
  | flushOp

/-- Dispatch one operation on a writer. -/
def MWriter.step (s : MWriter) : WOp → Except WErr MWriter
  | .writeOp d => s.write d
  | .pwriteOp d off => s.pwrite d off
  | .seekAbsOp p => s.seekAbs p
  | .seekRelOp off dir => s.seekRel off dir
  | .reserveOp n => s.reserve n
  | .shrinkOp => .ok s.shrink_to_fit
  | .flushOp => .ok s.flush

/-- The state after one operation: a thrown grow failure leaves the writer
at its pre-operation state (in the source, `expand` throws before any field
is mutated). -/
def MWriter.stepState (s : MWriter) (op : WOp) : MWriter :=
  match s.step op with
  | .ok t => t
  | .error _ => s

/-- Run a finite sequence of operations. -/
def MWriter.run (s : MWriter) : List WOp → MWriter
  | [] => s
  | op :: rest => (s.stepState op).run rest

/-- The writer state invariant of the spec:
`write_pos <= high_water <= capacity` (with `write_pos = write_pos`,
`high_water = max_write_pos` and `capacity = file_size = contents.length`;
`0 <= write_pos` is automatic for `Nat`). -/
def WInv (s : MWriter) : Prop :=
  s.write_pos ≤ s.max_write_pos ∧ s.max_write_pos ≤ s.contents.length

instance (s : MWriter) : Decidable (WInv s) := by
  unfold WInv; infer_instance

theorem scanAux_fst_ge (l : List Nat) (delim cur : Nat) : cur ≤ (scanAux l delim cur).1 := by
  induction l generalizing cur with
  | nil => simp [scanAux]
  | cons b rest ih =>
      by_cases h : b = delim
      · simp [scanAux, h]
      · simp only [scanAux, if_neg h]
        exact Nat.le_trans (Nat.le_succ cur) (ih (cur + 1))

theorem scanAux_fst_le (l : List Nat) (delim cur : Nat) :
    (scanAux l delim cur).1 ≤ cur + l.length := by
  induction l generalizing cur with
  | nil => simp [scanAux]
  | cons b rest ih =>
      by_cases h : b = delim
      · simp [scanAux, h]
      · simp only [scanAux, if_neg h, List.length_cons]
        have := ih (cur + 1)
        omega

theorem scanDelim_fst_gt (data : List Nat) (delim cur : Nat) (h : cur < data.length) :
    cur < (scanDelim data delim cur).1 := by
  unfold scanDelim
  rcases hd : data.drop cur with _ | ⟨b, rest⟩
  · exact absurd (List.drop_eq_nil_iff.mp hd) (by omega)
  · by_cases hb : b = delim
    · simp [scanAux, hb]
    · simp only [scanAux, if_neg hb]
      exact Nat.lt_of_lt_of_le (Nat.lt_succ_self cur) (scanAux_fst_ge rest delim (cur + 1))

theorem scanDelim_fst_le (data : List Nat) (delim cur : Nat) (h : cur ≤ data.length) :
    (scanDelim data delim cur).1 ≤ data.length := by
  unfold scanDelim
  have := scanAux_fst_le (data.drop cur) delim cur
  simp only [List.length_drop] at this
  omega

theorem scanAux_of_firstHitAux_some (l : List Nat) (delim i hit : Nat)
    (h : firstHitAux l delim i = some hit) : scanAux l delim i = (hit + 1, 1) := by
  induction l generalizing i with
  | nil => simp [firstHitAux] at h
  | cons b rest ih =>
      by_cases hb : b = delim
      · simp only [firstHitAux, if_pos hb, Option.some.injEq] at h
        simp [scanAux, hb, h]
      · simp only [firstHitAux, if_neg hb] at h
        simp only [scanAux, if_neg hb]
        exact ih (i + 1) h

theorem scanAux_of_firstHitAux_none (l : List Nat) (delim i : Nat)
    (h : firstHitAux l delim i = none) : scanAux l delim i = (i + l.length, 0) := by
  induction l generalizing i with
  | nil => simp [scanAux]
  | cons b rest ih =>
      by_cases hb : b = delim
      · simp [firstHitAux, hb] at h
      · simp only [firstHitAux, if_neg hb] at h
        simp only [scanAux, if_neg hb, List.length_cons]
        rw [ih (i + 1) h]
        have he : i + 1 + rest.length = i + (rest.length + 1) := by omega
        rw [he]

theorem scanDelim_of_firstHit_some (data : List Nat) (delim cur hit : Nat)
    (h : firstHit data delim cur = some hit) : scanDelim data delim cur = (hit + 1, 1) :=
  scanAux_of_firstHitAux_some (data.drop cur) delim cur hit h

theorem scanDelim_of_firstHit_none (data : List Nat) (delim cur : Nat) (hle : cur ≤ data.length)
    (h : firstHit data delim cur = none) : scanDelim data delim cur = (data.length, 0) := by
  unfold scanDelim
  rw [scanAux_of_firstHitAux_none (data.drop cur) delim cur h]
  rw [List.length_drop]
  have he : cur + (data.length - cur) = data.length := by omega
  rw [he]

theorem linesList_cons (r : MReader) (delim : Nat) (h : r.current_offset < r.data.length) :
    r.linesList delim = (r.next_line delim).1 :: ((r.next_line delim).2.linesList delim) := by
  conv_lhs => rw [MReader.linesList]
  rw [dif_pos h]

theorem linesList_nil (r : MReader) (delim : Nat) (h : ¬r.current_offset < r.data.length) :
    r.linesList delim = [] := by
  conv_lhs => rw [MReader.linesList]
  rw [dif_neg h]

theorem charsList_eq_drop (r : MReader) (h : r.current_offset ≤ r.data.length) :
    r.charsList = r.data.drop r.current_offset := by
  by_cases hlt : r.current_offset < r.data.length
  · conv_lhs => rw [MReader.charsList]
    rw [dif_pos hlt]
    have hrec :=
      charsList_eq_drop ⟨r.mapped, r.data, r.current_offset + 1⟩ (by simpa using hlt)
    simp only [MReader.next_char]
    rw [hrec]
    rw [List.drop_eq_getElem_cons hlt]
    simp [List.getD_eq_getElem?_getD, List.getElem?_eq_getElem hlt]
  · conv_lhs => rw [MReader.charsList]
    rw [dif_neg hlt]
    have hle : r.data.length ≤ r.current_offset := by omega
    exact (List.drop_eq_nil_iff.mpr hle).symm
termination_by r.data.length - r.current_offset
decreasing_by simp; omega

theorem length_resizeList (c : List Nat) (n : Nat) : (resizeList c n).length = n := by
  simp [resizeList]
  omega

theorem resizeList_self (c : List Nat) : resizeList c c.length = c := by
  simp [resizeList]

theorem resizeList_replicate (m n : Nat) :
    resizeList (List.replicate m 0) n = List.replicate n 0 := by
  simp only [resizeList, List.take_replicate, List.length_replicate,
    List.append_replicate_replicate]
  have h : min n m + (n - m) = n := by omega
  rw [h]

theorem resizeList_of_le (c : List Nat) (n : Nat) (h : n ≤ c.length) :
    resizeList c n = c.take n := by
  simp [resizeList, Nat.sub_eq_zero_of_le h]

theorem expandLoop_ge_cur (cur step required : Nat) : cur ≤ expandLoop cur step required := by
  unfold expandLoop
  split
  · next h =>
      exact Nat.le_trans (Nat.le_add_right cur step) (expandLoop_ge_cur (cur + step) step required)
  · exact Nat.le_refl cur
termination_by required - cur
decreasing_by omega

theorem expandLoop_ge_required (cur step required : Nat) (hs : 0 < step) :
    required ≤ expandLoop cur step required := by
  unfold expandLoop
  split
  · next h => exact expandLoop_ge_required (cur + step) step required hs
  · next h => omega
termination_by required - cur
decreasing_by omega

theorem expandLoop_steps (cur step required : Nat) :
    ∃ k, expandLoop cur step required = cur + k * step := by
  unfold expandLoop
  split
  · next h =>
      obtain ⟨k, hk⟩ := expandLoop_steps (cur + step) step required
      refine ⟨k + 1, ?_⟩
      rw [hk]
      ring
  · exact ⟨0, by simp⟩
termination_by required - cur
decreasing_by omega

theorem expandLoop_lt (cur step required : Nat) (hs : 0 < step) (h2 : cur < required) :
    expandLoop cur step required < required + step := by
  unfold expandLoop
  rw [dif_pos ⟨hs, h2⟩]
  by_cases h3 : cur + step < required
  · exact expandLoop_lt (cur + step) step required hs h3
  · rw [expandLoop, dif_neg (by omega)]
    omega
termination_by required - cur
decreasing_by omega

theorem expandLoop_of_ge (cur step required : Nat) (h : required ≤ cur) :
    expandLoop cur step required = cur := by
  unfold expandLoop
  rw [dif_neg (by omega)]

theorem length_writeAt (c : List Nat) (pos : Nat) (d : List Nat)
    (h : pos + d.length ≤ c.length) : (writeAt c pos d).length = c.length := by
  simp [writeAt]
  omega

theorem writeAt_slice (c : List Nat) (pos : Nat) (d : List Nat)
    (h : pos + d.length ≤ c.length) : ((writeAt c pos d).drop pos).take d.length = d := by
  unfold writeAt
  rw [List.append_assoc, List.drop_left' (by rw [List.length_take]; omega),
    List.take_left' rfl]

theorem writeAt_zero (c : List Nat) (d : List Nat) :
    writeAt c 0 d = d ++ c.drop d.length := by
  simp [writeAt]

theorem expand_ok (s : MWriter) (required : Nat) (h : ¬s.expand_size = 0) :
    s.expand required = .ok { s with
      contents := resizeList s.contents (expandLoop s.contents.length s.expand_size required) } := by
  simp [MWriter.expand, h]

theorem expand_err (s : MWriter) (required : Nat) (h : s.expand_size = 0) :
    s.expand required = .error .expandSizeZero := by
  simp [MWriter.expand, h]

theorem expand_ok_inv (s t : MWriter) (required : Nat) (h : s.expand required = .ok t) :
    t.write_pos = s.write_pos ∧ t.max_write_pos = s.max_write_pos ∧
    t.expand_size = s.expand_size ∧ t.should_close = s.should_close ∧
    s.contents.length ≤ t.contents.length ∧ required ≤ t.contents.length := by
  by_cases hz : s.expand_size = 0
  · rw [expand_err s required hz] at h
    exact absurd h (by simp)
  · rw [expand_ok s required hz] at h
    have ht : t = { s with
        contents := resizeList s.contents (expandLoop s.contents.length s.expand_size required) } := by
      cases h
      rfl
    subst ht
    refine ⟨rfl, rfl, rfl, rfl, ?_, ?_⟩
    · rw [length_resizeList]
      exact expandLoop_ge_cur _ _ _
    · rw [length_resizeList]
      exact expandLoop_ge_required _ _ _ (Nat.pos_of_ne_zero hz)

theorem growTo_spec (s t : MWriter) (required : Nat)
    (h : (if required > s.contents.length then s.expand required else .ok s) = .ok t) :
    t.write_pos = s.write_pos ∧ t.max_write_pos = s.max_write_pos ∧
    t.expand_size = s.expand_size ∧ t.should_close = s.should_close ∧
    s.contents.length ≤ t.contents.length ∧ required ≤ t.contents.length := by
  by_cases hc : required > s.contents.length
  · rw [if_pos hc] at h
    exact expand_ok_inv s t required h
  · rw [if_neg hc] at h
    have ht : t = s := by cases h; rfl
    subst ht
    exact ⟨rfl, rfl, rfl, rfl, Nat.le_refl _, by omega⟩

theorem growTo_ok (s : MWriter) (required : Nat) (h : ¬s.expand_size = 0) :
    ∃ t, (if required > s.contents.length then s.expand required else .ok s) = .ok t := by
  by_cases hc : required > s.contents.length
  · rw [if_pos hc, expand_ok s required h]
    exact ⟨_, rfl⟩
  · rw [if_neg hc]
    exact ⟨s, rfl⟩

theorem seekAbs_pres (s t : MWriter) (pos : Nat) (hinv : WInv s) (h : s.seekAbs pos = .ok t) :
    WInv t ∧ s.max_write_pos ≤ t.max_write_pos := by
  unfold MWriter.seekAbs at h
  rcases hg : (if pos > s.contents.length then s.expand pos else .ok s) with e | u
  · rw [hg] at h
    exact absurd h (by simp)
  · rw [hg] at h
    obtain ⟨hw, hm, _, _, hlen, hreq⟩ := growTo_spec s u pos hg
    have ht : t = { u with write_pos := pos, max_write_pos := max u.max_write_pos pos } := by
      cases h; rfl
    subst ht
    obtain ⟨hi1, hi2⟩ := hinv
    refine ⟨⟨?_, ?_⟩, ?_⟩
    · simp only
      omega
    · simp only
      omega
    · simp only
      omega

theorem write_pres (s t : MWriter) (d : List Nat) (hinv : WInv s) (h : s.write d = .ok t) :
    WInv t ∧ s.max_write_pos ≤ t.max_write_pos := by
  unfold MWriter.write at h
  rcases hg : (if s.write_pos + d.length > s.contents.length
      then s.expand (s.write_pos + d.length) else .ok s) with e | u
  · rw [hg] at h
    exact absurd h (by simp)
  · rw [hg] at h
    obtain ⟨hw, hm, _, _, hlen, hreq⟩ := growTo_spec s u _ hg
    have ht : t = { u with
        contents := writeAt u.contents u.write_pos d,
        write_pos := u.write_pos + d.length,
        max_write_pos := max u.max_write_pos (u.write_pos + d.length) } := by
      cases h; rfl
    subst ht
    obtain ⟨hi1, hi2⟩ := hinv
    have hla : (writeAt u.contents u.write_pos d).length = u.contents.length :=
      length_writeAt _ _ _ (by omega)
    refine ⟨⟨?_, ?_⟩, ?_⟩
    · simp only
      omega
    · simp only [hla]
      omega
    · simp only
      omega

theorem pwrite_pres (s t : MWriter) (d : List Nat) (off : Nat) (hinv : WInv s)
    (h : s.pwrite d off = .ok t) : WInv t ∧ s.max_write_pos ≤ t.max_write_pos := by
  unfold MWriter.pwrite at h
  rcases hg : (if off + d.length > s.contents.length
      then s.expand (off + d.length) else .ok s) with e | u
  · rw [hg] at h
    exact absurd h (by simp)
  · rw [hg] at h
    obtain ⟨hw, hm, _, _, hlen, hreq⟩ := growTo_spec s u _ hg
    have ht : t = { u with
        contents := writeAt u.contents off d,
        max_write_pos := max u.max_write_pos (off + d.length) } := by
      cases h; rfl
    subst ht
    obtain ⟨hi1, hi2⟩ := hinv
    have hla : (writeAt u.contents off d).length = u.contents.length :=
      length_writeAt _ _ _ (by omega)
    refine ⟨⟨?_, ?_⟩, ?_⟩
    · simp only [hw]
      omega
    · simp only [hla]
      omega
    · simp only
      omega

theorem seekRel_pres (s t : MWriter) (off : Int) (dir : SeekDir) (hinv : WInv s)
    (h : s.seekRel off dir = .ok t) : WInv t ∧ s.max_write_pos ≤ t.max_write_pos := by
  unfold MWriter.seekRel at h
  exact seekAbs_pres s t _ hinv h

theorem reserve_pres (s t : MWriter) (n : Nat) (hinv : WInv s)
    (h : s.reserve n = .ok t) : WInv t ∧ s.max_write_pos ≤ t.max_write_pos := by
  unfold MWriter.reserve at h
  obtain ⟨hw, hm, _, _, hlen, hreq⟩ := expand_ok_inv s t n h
  obtain ⟨hi1, hi2⟩ := hinv
  exact ⟨⟨by omega, by omega⟩, by omega⟩

theorem shrink_pres (s : MWriter) (hinv : WInv s) :
    WInv s.shrink_to_fit ∧ s.max_write_pos ≤ s.shrink_to_fit.max_write_pos := by
  unfold MWriter.shrink_to_fit
  split
  · next hc =>
      refine ⟨⟨hinv.1, ?_⟩, Nat.le_refl _⟩
      simp only [length_resizeList]
      exact Nat.le_refl _
  · exact ⟨hinv, Nat.le_refl _⟩

theorem stepState_pres (s : MWriter) (op : WOp) (hinv : WInv s) :
    WInv (s.stepState op) ∧ s.max_write_pos ≤ (s.stepState op).max_write_pos := by
  cases op with
  | writeOp d =>
      simp only [MWriter.stepState, MWriter.step]
      rcases h : s.write d with e | t
      · exact ⟨hinv, Nat.le_refl _⟩
      · exact write_pres s t d hinv h
  | pwriteOp d off =>
      simp only [MWriter.stepState, MWriter.step]
      rcases h : s.pwrite d off with e | t
      · exact ⟨hinv, Nat.le_refl _⟩
      · exact pwrite_pres s t d off hinv h
  | seekAbsOp p =>
      simp only [MWriter.stepState, MWriter.step]
      rcases h : s.seekAbs p with e | t
      · exact ⟨hinv, Nat.le_refl _⟩
      · exact seekAbs_pres s t p hinv h
  | seekRelOp off dir =>
      simp only [MWriter.stepState, MWriter.step]
      rcases h : s.seekRel off dir with e | t
      · exact ⟨hinv, Nat.le_refl _⟩
      · exact seekRel_pres s t off dir hinv h
  | reserveOp n =>
      simp only [MWriter.stepState, MWriter.step]
      rcases h : s.reserve n with e | t
      · exact ⟨hinv, Nat.le_refl _⟩
      · exact reserve_pres s t n hinv h
  | shrinkOp =>
      simp only [MWriter.stepState, MWriter.step]
      exact shrink_pres s hinv
  | flushOp =>
      simp only [MWriter.stepState, MWriter.step, MWriter.flush]
      exact ⟨hinv, Nat.le_refl _⟩

theorem run_inv (s : MWriter) (ops : List WOp) (h : WInv s) :
    WInv (s.run ops) ∧ s.max_write_pos ≤ (s.run ops).max_write_pos := by
  induction ops generalizing s with
  | nil => exact ⟨h, Nat.le_refl _⟩
  | cons op rest ih =>
      simp only [MWriter.run]
      have h1 := stepState_pres s op h
      have h2 := ih (s.stepState op) h1.1
      exact ⟨h2.1, Nat.le_trans h1.2 h2.2⟩

theorem run_append (s : MWriter) (a b : List WOp) : s.run (a ++ b) = (s.run a).run b := by
  induction a generalizing s with
  | nil => rfl
  | cons op rest ih =>
      simp only [List.cons_append, MWriter.run]
      exact ih _

/-- C5: for every open writer satisfying the state invariant and every
finite sequence of `write`, `pwrite`, `seek`, `reserve`, `shrink_to_fit`
and `flush` operations, `0 <= write_pos <= high_water <= capacity` holds
after every prefix of the sequence (so after each operation; `0 <=
write_pos` is automatic for `Nat`), and `high_water` (`max_write_pos`) is
monotonically non-decreasing along the sequence.  An operation whose grow
throws leaves the state unchanged, so the invariant survives it too. -/
theorem c5_writer_invariant (s : MWriter) (ops : List WOp) (h : WInv s) :
    (∀ n, WInv (s.run (ops.take n))) ∧
    (∀ n m, n ≤ m →
      (s.run (ops.take n)).max_write_pos ≤ (s.run (ops.take m)).max_write_pos) := by
  constructor
  · intro n
    exact (run_inv s (ops.take n) h).1
  · intro n m hnm
    have e1 : ops.take n ++ (ops.take m).drop n = ops.take m := by
      conv_rhs => rw [← List.take_append_drop n (ops.take m)]
      rw [List.take_take, Nat.min_eq_left hnm]
    calc (s.run (ops.take n)).max_write_pos
        ≤ ((s.run (ops.take n)).run ((ops.take m).drop n)).max_write_pos :=
          (run_inv _ _ ((run_inv s (ops.take n) h).1)).2
      _ = (s.run (ops.take m)).max_write_pos := by rw [← run_append, e1]

/-- Witness for C5 at a concrete writer and operation sequence. -/
theorem c5_writer_invariant_w :
    (∀ n, WInv ((⟨[5, 6, 7], 1, 2, 8192, true⟩ : MWriter).run
        ([.writeOp [1], .shrinkOp, .seekRelOp (-1) .cur, .flushOp].take n))) ∧
    (∀ n m, n ≤ m →
      ((⟨[5, 6, 7], 1, 2, 8192, true⟩ : MWriter).run
          ([.writeOp [1], .shrinkOp, .seekRelOp (-1) .cur, .flushOp].take n)).max_write_pos ≤
        ((⟨[5, 6, 7], 1, 2, 8192, true⟩ : MWriter).run
          ([.writeOp [1], .shrinkOp, .seekRelOp (-1) .cur, .flushOp].take m)).max_write_pos) :=
  c5_writer_invariant ⟨[5, 6, 7], 1, 2, 8192, true⟩
    [.writeOp [1], .shrinkOp, .seekRelOp (-1) .cur, .flushOp] (by decide)

/-- C6: for every open writer with a positive grow increment and
`write_pos = p`, `write(b)` succeeds, the mapped bytes at `[p, p + |b|)`
afterwards equal `b`, `write_pos` becomes `p + |b|`, `high_water` is at
least `p + |b|`, and the capacity was grown to at least `p + |b|` first
when needed. -/
theorem c6_write_effect (s : MWriter) (b : List Nat) (h : 0 < s.expand_size) :
    ∃ t, s.write b = .ok t ∧
      (t.contents.drop s.write_pos).take b.length = b ∧
      t.write_pos = s.write_pos + b.length ∧
      s.write_pos + b.length ≤ t.max_write_pos ∧
      s.write_pos + b.length ≤ t.capacity := by
  obtain ⟨u, hu⟩ := growTo_ok s (s.write_pos + b.length) (by omega)
  obtain ⟨hw, hm, _, _, hlen, hreq⟩ := growTo_spec s u _ hu
  refine ⟨{ u with
      contents := writeAt u.contents u.write_pos b,
      write_pos := u.write_pos + b.length,
      max_write_pos := max u.max_write_pos (u.write_pos + b.length) }, ?_, ?_, ?_, ?_, ?_⟩
  · unfold MWriter.write
    rw [hu]
  · show ((writeAt u.contents u.write_pos b).drop s.write_pos).take b.length = b
    rw [← hw]
    exact writeAt_slice _ _ _ (by omega)
  · show u.write_pos + b.length = s.write_pos + b.length
    omega
  · show s.write_pos + b.length ≤ max u.max_write_pos (u.write_pos + b.length)
    omega
  · show s.write_pos + b.length ≤ (writeAt u.contents u.write_pos b).length
    rw [length_writeAt _ _ _ (by omega)]
    omega

/-- Witness for C6 at a concrete writer state and byte sequence. -/
theorem c6_write_effect_w :
    ∃ t, (⟨[9, 9, 9, 9], 1, 1, 8192, true⟩ : MWriter).write [3, 4] = .ok t ∧
      (t.contents.drop 1).take 2 = [3, 4] ∧
      t.write_pos = 1 + 2 ∧
      1 + 2 ≤ t.max_write_pos ∧
      1 + 2 ≤ t.capacity :=
  c6_write_effect ⟨[9, 9, 9, 9], 1, 1, 8192, true⟩ [3, 4] (by decide)

/-- C9: `shrink_to_fit` is idempotent (a second call leaves the state and
hence the backing-file length unchanged); a reader's `close` is idempotent
(a second `close` is a no-op on the closed state and performs no second
`::close(fd)`); and the writer teardown's file truncation applied to the
already-truncated file changes nothing. -/
theorem c9_idempotence (s : MWriter) (r : MReader) :
    s.shrink_to_fit.shrink_to_fit = s.shrink_to_fit ∧
    (r.close.1).close.1 = r.close.1 ∧
    (r.close.1).close.2 = false ∧
    ({ s with contents := s.closeFile.1 } : MWriter).closeFile.1 = s.closeFile.1 := by
  refine ⟨?_, ?_, ?_, ?_⟩
  · by_cases hc : s.max_write_pos < s.contents.length
    · have h1 : s.shrink_to_fit =
          { s with contents := resizeList s.contents s.max_write_pos } := by
        unfold MWriter.shrink_to_fit
        rw [if_pos hc]
      rw [h1]
      unfold MWriter.shrink_to_fit
      rw [if_neg (by simp [length_resizeList])]
    · have h1 : s.shrink_to_fit = s := by
        unfold MWriter.shrink_to_fit
        rw [if_neg hc]
      rw [h1, h1]
  · by_cases hm : r.mapped
    · simp [MReader.close, hm]
    · simp [MReader.close, hm]
  · by_cases hm : r.mapped
    · simp [MReader.close, hm]
    · simp [MReader.close, hm]
  · by_cases hc : s.max_write_pos < s.contents.length
    · have h1 : s.closeFile.1 = resizeList s.contents s.max_write_pos := by
        unfold MWriter.closeFile
        simp only
        rw [if_pos hc]
      rw [h1]
      unfold MWriter.closeFile
      simp only
      rw [if_neg (by simp [length_resizeList])]
    · have h1 : s.closeFile.1 = s.contents := by
        unfold MWriter.closeFile
        simp only
        rw [if_neg hc]
      rw [h1]
      unfold MWriter.closeFile
      simp only
      rw [if_neg hc]

/-- C1 counterexample: a reader constructed from a caller-provided
descriptor (`mmap_reader::open(int)`) does close that descriptor at
teardown: `close()` reports that `::close(fd)` was invoked. -/
theorem c1_counterexample :
    (MReader.ofFd [104, 105]).is_open = true ∧ (MReader.ofFd [104, 105]).close.2 = true := by
  decide

/-- C1 amended: only the writer preserves caller-provided handles.  A
writer constructed from a (non-negative) descriptor has
`should_close = false` and its teardown does not close the descriptor; a
writer constructed from a path closes the handle it opened itself; the
reader closes its descriptor on close/destruction even when the descriptor
was caller-provided. -/
theorem c1_handle_ownership (bytes existing : List Nat) (trunc : Bool) (rsv fd : Nat) :
    (∃ w, MWriter.openFd (fd : Int) existing trunc rsv = .ok w ∧ w.closeFile.2 = false) ∧
    (MWriter.openPath existing trunc rsv).closeFile.2 = true ∧
    (MReader.ofFd bytes).close.2 = true := by
  refine ⟨?_, rfl, rfl⟩
  refine ⟨{ contents := resizeList existing (initFileSize existing.length rsv), write_pos := if trunc then 0 else existing.length, max_write_pos := if trunc then 0 else existing.length, expand_size := 8192, should_close := false }, ?_, rfl⟩
  unfold MWriter.openFd
  rw [if_neg (by omega)]

theorem write_zero_state (s : MWriter) (B : List Nat) (m : Nat)
    (hcontents : s.contents = List.replicate m 0)
    (hwp : s.write_pos = 0) (hmax : s.max_write_pos = 0) (hes : ¬s.expand_size = 0) :
    ∃ t, s.write B = .ok t ∧
      t.contents = B ++ List.replicate (t.contents.length - B.length) 0 ∧
      B.length ≤ t.contents.length ∧
      t.max_write_pos = B.length := by
  obtain ⟨u, hu⟩ := growTo_ok s (s.write_pos + B.length) hes
  obtain ⟨hw, hm, hes2, hsc, hlen, hreq⟩ := growTo_spec s u _ hu
  have hex : ∃ L, u.contents = List.replicate L 0 := by
    by_cases hcc : s.write_pos + B.length > s.contents.length
    · rw [if_pos hcc, expand_ok s _ hes] at hu
      refine ⟨expandLoop s.contents.length s.expand_size (s.write_pos + B.length), ?_⟩
      have hue : u = { s with contents := resizeList s.contents (expandLoop s.contents.length s.expand_size (s.write_pos + B.length)) } := by
        cases hu
        rfl
      rw [hue]
      show resizeList s.contents _ = _
      rw [hcontents, resizeList_replicate]
    · rw [if_neg hcc] at hu
      have hue : u = s := by
        cases hu
        rfl
      rw [hue, hcontents]
      exact ⟨m, rfl⟩
  obtain ⟨L, hL⟩ := hex
  have hlenL : u.contents.length = L := by rw [hL]; simp
  have hwp0 : u.write_pos = 0 := by omega
  have hble : B.length ≤ L := by omega
  refine ⟨{ u with
      contents := writeAt u.contents u.write_pos B,
      write_pos := u.write_pos + B.length,
      max_write_pos := max u.max_write_pos (u.write_pos + B.length) }, ?_, ?_, ?_, ?_⟩
  · unfold MWriter.write
    rw [hu]
  · show writeAt u.contents u.write_pos B =
      B ++ List.replicate ((writeAt u.contents u.write_pos B).length - B.length) 0
    rw [hwp0, writeAt_zero, hL, List.drop_replicate]
    simp only [List.length_append, List.length_replicate]
    have he : B.length + (L - B.length) - B.length = L - B.length := by omega
    rw [he]
  · show B.length ≤ (writeAt u.contents u.write_pos B).length
    rw [hwp0, writeAt_zero]
    simp
  · show max u.max_write_pos (u.write_pos + B.length) = B.length
    omega

theorem closeFile_padded (t : MWriter) (B : List Nat)
    (hc : t.contents = B ++ List.replicate (t.contents.length - B.length) 0)
    (hle : B.length ≤ t.contents.length)
    (hm : t.max_write_pos = B.length) :
    t.closeFile.1 = B := by
  unfold MWriter.closeFile
  simp only
  by_cases hlt : t.max_write_pos < t.contents.length
  · rw [if_pos hlt, resizeList_of_le _ _ (by omega), hm]
    conv_lhs => rw [hc]
    exact List.take_left' rfl
  · rw [if_neg hlt]
    have heq : t.contents.length = B.length := by omega
    rw [hc, heq]
    simp

/-- C2: for every byte sequence `B`, writing `B` through a writer on a
fresh file opened with truncate and tearing the writer down leaves exactly
`B` on disk (length `high_water = |B|`, no trailing zero bytes from the
peak capacity), and a reader over that file has `size() = |B|` and
whole-file contents `B`. -/
theorem c2_roundtrip (B : List Nat) :
    ∃ t, (MWriter.openPath [] true 0).write B = .ok t ∧
      t.closeFile.1 = B ∧
      (MReader.openPath t.closeFile.1).size = B.length ∧
      (MReader.openPath t.closeFile.1).data = B := by
  have h0 : MWriter.openPath [] true 0 = ⟨List.replicate 8192 0, 0, 0, 8192, true⟩ := rfl
  rw [h0]
  obtain ⟨t, ht, hc, hle, hm⟩ :=
    write_zero_state ⟨List.replicate 8192 0, 0, 0, 8192, true⟩ B 8192 rfl rfl rfl (by decide)
  have hclose : t.closeFile.1 = B := closeFile_padded t B hc hle hm
  refine ⟨t, ht, hclose, ?_, ?_⟩
  · rw [hclose]
    rfl
  · rw [hclose]
    rfl

/-- C3 counterexample: over a 10-byte backing file with reservation 20 the
writer's initial capacity is `10 + 20 = 30`, not the claimed
`max(10, 20, default) = 20`. -/
theorem c3_counterexample :
    (MWriter.openPath (List.replicate 10 0) false 20).capacity = 30 ∧
    specInitCapacity 10 20 = 20 ∧
    ¬(MWriter.openPath (List.replicate 10 0) false 20).capacity = specInitCapacity 10 20 := by
  decide

theorem initFileSize_eq_spec (L rsv : Nat) (h : L = 0 ∨ rsv = 0) :
    initFileSize L rsv = specInitCapacity L rsv := by
  unfold initFileSize specInitCapacity
  rcases h with h | h
  · subst h
    split_ifs <;> omega
  · subst h
    split_ifs <;> omega

/-- C3 amended: the initial capacity is `old_length + reserved_size` for a
non-empty backing file; for an empty file it is `reserved_size` when a
reservation was given and `8192` (the default `expand_size`) otherwise.
This agrees with the spec's `max(L, reserved_size, default)` formula
exactly when `L = 0` or `reserved_size = 0`.  The descriptor constructor
sizes the file the same way, and the path constructor with truncate
measures `L = 0` because of `O_TRUNC`. -/
theorem c3_initial_capacity (existing : List Nat) (rsv fd : Nat) :
    (MWriter.openPath existing false rsv).capacity = initFileSize existing.length rsv ∧
    (existing.length = 0 ∨ rsv = 0 →
      (MWriter.openPath existing false rsv).capacity = specInitCapacity existing.length rsv) ∧
    (0 < existing.length →
      (MWriter.openPath existing false rsv).capacity = existing.length + rsv) ∧
    (MWriter.openPath existing true rsv).capacity = specInitCapacity 0 rsv ∧
    (∃ w, MWriter.openFd (fd : Int) existing false rsv = .ok w ∧
      w.capacity = initFileSize existing.length rsv) := by
  have hcap : (MWriter.openPath existing false rsv).capacity =
      initFileSize existing.length rsv := by
    show (resizeList existing (initFileSize existing.length rsv)).length = _
    rw [length_resizeList]
  refine ⟨hcap, ?_, ?_, ?_, ?_⟩
  · intro h
    rw [hcap, initFileSize_eq_spec _ _ h]
  · intro h
    rw [hcap]
    unfold initFileSize
    rw [if_neg (by omega)]
  · show (resizeList [] (initFileSize 0 rsv)).length = _
    rw [length_resizeList, initFileSize_eq_spec 0 rsv (Or.inl rfl)]
  · refine ⟨{ contents := resizeList existing (initFileSize existing.length rsv), write_pos := if false then 0 else existing.length, max_write_pos := if false then 0 else existing.length, expand_size := 8192, should_close := false }, ?_, ?_⟩
    · unfold MWriter.openFd
      rw [if_neg (by omega)]
    · show (resizeList existing (initFileSize existing.length rsv)).length = _
      rw [length_resizeList]

/-- C4 counterexample: `set_expand_size(0)` does not make the next grow
fail with an invalid-argument error - it resets the increment to 8192, and
a subsequent `seek` past the capacity (an operation that needs a grow)
succeeds. -/
theorem c4_counterexample :
    ((⟨[], 0, 0, 8192, true⟩ : MWriter).set_expand_size 0).expand_size = 8192 ∧
    wIsOk (((⟨[], 0, 0, 8192, true⟩ : MWriter).set_expand_size 0).seekAbs 5) = true :=
  ⟨rfl, rfl⟩

/-- C4 amended: `set_expand_size(0)` resets the grow increment to the
default 8192 (so the next grow succeeds with step 8192 instead of
failing); `set_expand_size(n)` with `n > 0` sets the increment to `n`; and
a grow with a positive increment always succeeds, extending the capacity
by the smallest number of `expand_size` steps that reaches the requirement
(the `expand_size == 0` rejection inside `expand` is unreachable through
the public interface, since the increment starts at 8192 and the setter
never stores 0). -/
theorem c4_expand_size (s : MWriter) (n req : Nat) (hn : 0 < n) :
    (s.set_expand_size 0).expand_size = 8192 ∧
    (s.set_expand_size n).expand_size = n ∧
    (∀ t : MWriter, 0 < t.expand_size →
      ∃ u, t.expand req = .ok u ∧
        (∃ k, u.capacity = t.capacity + k * t.expand_size) ∧
        (t.capacity < req → req ≤ u.capacity ∧ u.capacity < req + t.expand_size) ∧
        (req ≤ t.capacity → u = t)) := by
  refine ⟨?_, ?_, ?_⟩
  · simp [MWriter.set_expand_size]
  · simp [MWriter.set_expand_size, hn]
  · intro t ht
    have hne : ¬t.expand_size = 0 := by omega
    refine ⟨_, expand_ok t req hne, ?_, ?_, ?_⟩
    · obtain ⟨k, hk⟩ := expandLoop_steps t.contents.length t.expand_size req
      refine ⟨k, ?_⟩
      show (resizeList t.contents (expandLoop t.contents.length t.expand_size req)).length =
        t.contents.length + k * t.expand_size
      rw [length_resizeList, hk]
    · intro hlt
      constructor
      · show req ≤ (resizeList t.contents (expandLoop t.contents.length t.expand_size req)).length
        rw [length_resizeList]
        exact expandLoop_ge_required _ _ _ (by omega)
      · show (resizeList t.contents
            (expandLoop t.contents.length t.expand_size req)).length < req + t.expand_size
        rw [length_resizeList]
        exact expandLoop_lt _ _ _ (by omega) hlt
    · intro hge
      have hge2 : req ≤ t.contents.length := hge
      show { t with contents := resizeList t.contents (expandLoop t.contents.length t.expand_size req) } = t
      rw [expandLoop_of_ge _ _ _ hge2, resizeList_self]

/-- Witness for C4's amended statement at a concrete writer, increment and
requirement. -/
theorem c4_expand_size_w :
    ((⟨[], 0, 0, 8192, true⟩ : MWriter).set_expand_size 0).expand_size = 8192 ∧
    ((⟨[], 0, 0, 8192, true⟩ : MWriter).set_expand_size 3).expand_size = 3 ∧
    (∀ t : MWriter, 0 < t.expand_size →
      ∃ u, t.expand 5 = .ok u ∧
        (∃ k, u.capacity = t.capacity + k * t.expand_size) ∧
        (t.capacity < 5 → 5 ≤ u.capacity ∧ u.capacity < 5 + t.expand_size) ∧
        (5 ≤ t.capacity → u = t)) :=
  c4_expand_size ⟨[], 0, 0, 8192, true⟩ 3 5 (by decide)

/-- C7 counterexample: the S1 test file
`"Hello, mmap_reader!\nThis is a test file.\n"` is 41 bytes long, not 42 as
the claim describes it. -/
theorem c7_counterexample :
    (MReader.openPath s1Data).size = 41 ∧ ¬(MReader.openPath s1Data).size = 42 := by
  decide

/-- C7 amended: `getline(d)` returns `nullopt` iff `read_pos = capacity`
(for any reader with `read_pos <= capacity`); otherwise, when the delimiter
occurs at or after `read_pos` it returns the view `[read_pos, hit)`
(delimiter excluded) and advances the cursor to `hit + 1`, and when no
delimiter occurs before EOF it returns the view `[read_pos, capacity)` and
advances the cursor to `capacity`.  Consequently on the 41-byte S1 file,
`lines()` yields exactly `["Hello, mmap_reader!", "This is a test file."]`
and terminates. -/
theorem c7_getline (r : MReader) (delim : Nat) (h : r.current_offset ≤ r.data.length) :
    (r.getline delim = none ↔ r.current_offset = r.data.length) ∧
    (∀ hit, firstHit r.data delim r.current_offset = some hit →
      r.getline delim =
        some ((r.data.drop r.current_offset).take (hit - r.current_offset),
          { r with current_offset := hit + 1 })) ∧
    (firstHit r.data delim r.current_offset = none → r.current_offset < r.data.length →
      r.getline delim =
        some (r.data.drop r.current_offset, { r with current_offset := r.data.length })) ∧
    (MReader.openPath s1Data).linesList 10 = [s1Line1, s1Line2] := by
  refine ⟨?_, ?_, ?_, ?_⟩
  · unfold MReader.getline
    by_cases hc : r.current_offset ≥ r.data.length
    · rw [if_pos hc]
      simp
      omega
    · rw [if_neg hc]
      simp
      omega
  · intro hit hhit
    have hlt : r.current_offset < r.data.length := by
      by_contra hge
      have hdrop : r.data.drop r.current_offset = [] := List.drop_eq_nil_iff.mpr (by omega)
      unfold firstHit at hhit
      rw [hdrop] at hhit
      simp [firstHitAux] at hhit
    unfold MReader.getline
    rw [if_neg (by omega)]
    simp only [MReader.next_line]
    rw [scanDelim_of_firstHit_some r.data delim r.current_offset hit hhit]
    have he : hit + 1 - r.current_offset - 1 = hit - r.current_offset := by omega
    simp [he]
  · intro hnone hlt
    unfold MReader.getline
    rw [if_neg (by omega)]
    simp only [MReader.next_line]
    rw [scanDelim_of_firstHit_none r.data delim r.current_offset h hnone]
    have he : (r.data.drop r.current_offset).take (r.data.length - r.current_offset - 0) =
        r.data.drop r.current_offset := by
      apply List.take_of_length_le
      simp
    simp [he]
  · have h1 : (MReader.openPath s1Data).next_line 10 = (s1Line1, ⟨true, s1Data, 20⟩) := by
      decide
    rw [linesList_cons _ _ (by decide), h1]
    show s1Line1 :: (MReader.linesList ⟨true, s1Data, 20⟩ 10) = [s1Line1, s1Line2]
    have h2 : (⟨true, s1Data, 20⟩ : MReader).next_line 10 = (s1Line2, ⟨true, s1Data, 41⟩) := by
      decide
    rw [linesList_cons _ _ (by decide), h2]
    show s1Line1 :: s1Line2 :: (MReader.linesList ⟨true, s1Data, 41⟩ 10) = [s1Line1, s1Line2]
    rw [linesList_nil _ _ (by decide)]

/-- Witness for C7's amended statement at a concrete reader. -/
theorem c7_getline_w :
    (MReader.getline ⟨true, [7, 10, 8], 1⟩ 10 = none ↔ (1 : Nat) = 3) ∧
    (∀ hit, firstHit [7, 10, 8] 10 1 = some hit →
      MReader.getline ⟨true, [7, 10, 8], 1⟩ 10 =
        some (([7, 10, 8] : List Nat).drop 1 |>.take (hit - 1), ⟨true, [7, 10, 8], hit + 1⟩)) ∧
    (firstHit [7, 10, 8] 10 1 = none → 1 < 3 →
      MReader.getline ⟨true, [7, 10, 8], 1⟩ 10 =
        some (([7, 10, 8] : List Nat).drop 1, ⟨true, [7, 10, 8], 3⟩)) ∧
    (MReader.openPath s1Data).linesList 10 = [s1Line1, s1Line2] :=
  c7_getline ⟨true, [7, 10, 8], 1⟩ 10 (by decide)

/-- C8: reader seeks clamp to `[0, capacity]` and never fail, and on a
reader over a 42-byte file the sequence `seek(7); seek(5, cur);
seek(1024, cur); seek(-1024, cur); seek(-10, beg); seek(-5, end);
seek(-1024, end)` yields `tell()` values `7, 12, 42, 0, 0, 37, 0`. -/
theorem c8_seek_table (r : MReader) (h : r.data.length = 42)
    (h2 : r.current_offset ≤ r.data.length) :
    (∀ pos, (r.seekAbs pos).tell ≤ r.size) ∧
    (∀ off dir, (r.seekRel off dir).tell ≤ r.size) ∧
    (r.seekAbs 7).tell = 7 ∧
    ((r.seekAbs 7).seekRel 5 .cur).tell = 12 ∧
    (((r.seekAbs 7).seekRel 5 .cur).seekRel 1024 .cur).tell = 42 ∧
    ((((r.seekAbs 7).seekRel 5 .cur).seekRel 1024 .cur).seekRel (-1024) .cur).tell = 0 ∧
    (((((r.seekAbs 7).seekRel 5 .cur).seekRel 1024 .cur).seekRel (-1024) .cur).seekRel (-10) .beg).tell = 0 ∧
    ((((((r.seekAbs 7).seekRel 5 .cur).seekRel 1024 .cur).seekRel (-1024) .cur).seekRel (-10) .beg).seekRel (-5) .fin).tell = 37 ∧
    (((((((r.seekAbs 7).seekRel 5 .cur).seekRel 1024 .cur).seekRel (-1024) .cur).seekRel (-10) .beg).seekRel (-5) .fin).seekRel (-1024) .fin).tell = 0 := by
  have e0 : r.seekAbs 7 = ⟨r.mapped, r.data, 7⟩ := by
    simp [MReader.seekAbs, h]
  have e1 : (⟨r.mapped, r.data, 7⟩ : MReader).seekRel 5 .cur = ⟨r.mapped, r.data, 12⟩ := by
    simp [MReader.seekRel, h]
  have e2 : (⟨r.mapped, r.data, 12⟩ : MReader).seekRel 1024 .cur = ⟨r.mapped, r.data, 42⟩ := by
    simp [MReader.seekRel, h]
  have e3 : (⟨r.mapped, r.data, 42⟩ : MReader).seekRel (-1024) .cur = ⟨r.mapped, r.data, 0⟩ := by
    simp [MReader.seekRel, h]
  have e4 : (⟨r.mapped, r.data, 0⟩ : MReader).seekRel (-10) .beg = ⟨r.mapped, r.data, 0⟩ := by
    simp [MReader.seekRel]
  have e5 : (⟨r.mapped, r.data, 0⟩ : MReader).seekRel (-5) .fin = ⟨r.mapped, r.data, 37⟩ := by
    simp [MReader.seekRel, h]
  have e6 : (⟨r.mapped, r.data, 37⟩ : MReader).seekRel (-1024) .fin = ⟨r.mapped, r.data, 0⟩ := by
    simp [MReader.seekRel, h]
  refine ⟨?_, ?_, ?_, ?_, ?_, ?_, ?_, ?_, ?_⟩
  · intro pos
    simp [MReader.seekAbs, MReader.tell, MReader.size]
  · intro off dir
    cases dir <;> simp only [MReader.seekRel, MReader.tell, MReader.size] <;>
      split_ifs <;> simp <;> omega
  · rw [e0]
    rfl
  · rw [e0, e1]
    rfl
  · rw [e0, e1, e2]
    rfl
  · rw [e0, e1, e2, e3]
    rfl
  · rw [e0, e1, e2, e3, e4]
    rfl
  · rw [e0, e1, e2, e3, e4, e5]
    rfl
  · rw [e0, e1, e2, e3, e4, e5, e6]
    rfl

/-- Witness for C8 at a concrete reader over a 42-byte file. -/
theorem c8_seek_table_w :
    (∀ pos, ((⟨true, List.replicate 42 0, 0⟩ : MReader).seekAbs pos).tell ≤
      (⟨true, List.replicate 42 0, 0⟩ : MReader).size) ∧
    (∀ off dir, ((⟨true, List.replicate 42 0, 0⟩ : MReader).seekRel off dir).tell ≤
      (⟨true, List.replicate 42 0, 0⟩ : MReader).size) ∧
    ((⟨true, List.replicate 42 0, 0⟩ : MReader).seekAbs 7).tell = 7 ∧
    (((⟨true, List.replicate 42 0, 0⟩ : MReader).seekAbs 7).seekRel 5 .cur).tell = 12 ∧
    ((((⟨true, List.replicate 42 0, 0⟩ : MReader).seekAbs 7).seekRel 5 .cur).seekRel 1024 .cur).tell = 42 ∧
    (((((⟨true, List.replicate 42 0, 0⟩ : MReader).seekAbs 7).seekRel 5 .cur).seekRel 1024 .cur).seekRel (-1024) .cur).tell = 0 ∧
    ((((((⟨true, List.replicate 42 0, 0⟩ : MReader).seekAbs 7).seekRel 5 .cur).seekRel 1024 .cur).seekRel (-1024) .cur).seekRel (-10) .beg).tell = 0 ∧
    (((((((⟨true, List.replicate 42 0, 0⟩ : MReader).seekAbs 7).seekRel 5 .cur).seekRel 1024 .cur).seekRel (-1024) .cur).seekRel (-10) .beg).seekRel (-5) .fin).tell = 37 ∧
    ((((((((⟨true, List.replicate 42 0, 0⟩ : MReader).seekAbs 7).seekRel 5 .cur).seekRel 1024 .cur).seekRel (-1024) .cur).seekRel (-10) .beg).seekRel (-5) .fin).seekRel (-1024) .fin).tell = 0 :=
  c8_seek_table ⟨true, List.replicate 42 0, 0⟩ (by simp) (by simp)

/-- C10: `operator++` of both iterator kinds performs no state change (the
reader is untouched); `operator*` consumes input: it returns the next line
(respectively byte) and advances the shared cursor, so two consecutive
dereferences without an increment yield two consecutive lines
(respectively bytes: `charsList` enumerates exactly the bytes from the
cursor on); and iteration continues exactly while `read_pos < capacity`,
terminating when `read_pos` reaches `capacity`. -/
theorem c10_iterators (r : MReader) (delim : Nat) (h : r.current_offset ≤ r.data.length) :
    r.lineIterInc = r ∧
    r.charIterInc = r ∧
    (r.iterNe = false ↔ r.current_offset = r.data.length) ∧
    r.charsList = r.data.drop r.current_offset ∧
    (r.current_offset < r.data.length →
      (r.linesList delim).headD [] = (r.lineIterDeref delim).1 ∧
      r.current_offset < (r.lineIterDeref delim).2.current_offset ∧
      ((r.lineIterDeref delim).2).linesList delim = (r.linesList delim).tail ∧
      r.charIterDeref.1 = r.data.getD r.current_offset 0 ∧
      r.charIterDeref.2.charIterDeref.1 = r.data.getD (r.current_offset + 1) 0) := by
  refine ⟨rfl, rfl, ?_, charsList_eq_drop r h, ?_⟩
  · unfold MReader.iterNe MReader.eof
    simp
    omega
  · intro hlt
    have hl := linesList_cons r delim hlt
    refine ⟨?_, ?_, ?_, rfl, rfl⟩
    · rw [hl]
      rfl
    · unfold MReader.lineIterDeref
      simp only [MReader.next_line]
      exact scanDelim_fst_gt r.data delim r.current_offset hlt
    · rw [hl]
      rfl

/-- Witness for C10 at a concrete reader. -/
theorem c10_iterators_w :
    (⟨true, [1, 10, 2], 0⟩ : MReader).lineIterInc = ⟨true, [1, 10, 2], 0⟩ ∧
    (⟨true, [1, 10, 2], 0⟩ : MReader).charIterInc = ⟨true, [1, 10, 2], 0⟩ ∧
    ((⟨true, [1, 10, 2], 0⟩ : MReader).iterNe = false ↔ (0 : Nat) = 3) ∧
    (⟨true, [1, 10, 2], 0⟩ : MReader).charsList = ([1, 10, 2] : List Nat).drop 0 ∧
    (0 < 3 →
      ((⟨true, [1, 10, 2], 0⟩ : MReader).linesList 10).headD [] =
        ((⟨true, [1, 10, 2], 0⟩ : MReader).lineIterDeref 10).1 ∧
      0 < ((⟨true, [1, 10, 2], 0⟩ : MReader).lineIterDeref 10).2.current_offset ∧
      (((⟨true, [1, 10, 2], 0⟩ : MReader).lineIterDeref 10).2).linesList 10 =
        ((⟨true, [1, 10, 2], 0⟩ : MReader).linesList 10).tail ∧
      ((⟨true, [1, 10, 2], 0⟩ : MReader).charIterDeref).1 = ([1, 10, 2] : List Nat).getD 0 0 ∧
      ((⟨true, [1, 10, 2], 0⟩ : MReader).charIterDeref).2.charIterDeref.1 =
        ([1, 10, 2] : List Nat).getD 1 0) :=
  c10_iterators ⟨true, [1, 10, 2], 0⟩ 10 (by decide)
